import Mathlib

/-!
# hashutils: the checksum manifest

A shallow embedding of `src/utils.cpp` (`print_digest`, `read_cheksum`) and of
`src/utils.hpp` (`checksum_entry_t`, `check_digest`, `dump_digest`), followed by
theorems about them.

Conventions of the embedding.

* A `std::string` is a `List Char` and a byte is a `Nat` below 256.
* A `std::size_t` is a `Nat` taken modulo `2 ^ 64` (`size_t`) where the value can
  wrap: the product `digest_size * 2` wraps for a digest size of `2 ^ 63` or
  more, and both sides of the test `checksum.size () != digest_size * 2` are
  values of that type.  The size of a line and the indices `i`, `i + 1`, `i + 2`
  into it are below `2 ^ 64` for every string held in memory and are not
  reduced.
* `print_error` writes its message and calls `std::exit`, so a call to it ends
  the run: `read_cheksum` returns `Except.error` with the matching `Error`.
* An exception that nothing catches (the code has no `try` block) ends the run
  as well and is an `Error` too.
* What the program writes on standard output is returned as a value.
-/

namespace HashUtils

/-! ## Data model -/

/-- The struct `checksum_entry_t` of `utils.hpp`. -/
structure checksum_entry_t where
  filename : List Char
  checksum : List Nat
  binary_mode : Bool
deriving DecidableEq, Repr

/-- The ways a run of `read_cheksum` or `check_digest` ends without returning.
The first six are the calls of `print_error` in `read_cheksum`, each with the
value of `line_number` that the message carries where it has one:

* `could_not_open`: "could not open" followed by the path;
* `no_checksum N`: "no checksum at line N";
* `invalid_checksum N`: "invalid checksum at line N";
* `invalid_format N`: "invalid format at line N";
* `invalid_format_in N`: "invalid format at line N in" followed by a quote, the
  message of the separator check;
* `invalid_filename N`: "invalid filename at line N".

The last two are exceptions that no handler catches:

* `out_of_range`: `std::out_of_range`, thrown by `line.substr (i + 2)` when
  `i + 2` exceeds `line.size ()`;
* `file_store_err`: the exception of the Crypto++ `FileSource` for a file that
  cannot be opened or read. -/
inductive Error where
  | could_not_open
  | no_checksum (line_number : Nat)
  | invalid_checksum (line_number : Nat)
  | invalid_format (line_number : Nat)
  | invalid_format_in (line_number : Nat)
  | invalid_filename (line_number : Nat)
  | out_of_range
  | file_store_err
deriving DecidableEq, Repr

/-! ## Hex codec (Crypto++ `HexEncoder` and `HexDecoder`) -/

/-- The test `std::isxdigit` in the C locale. -/
def isxdigit (c : Char) : Bool :=
  ('0'.toNat ≤ c.toNat && c.toNat ≤ '9'.toNat)
    || ('a'.toNat ≤ c.toNat && c.toNat ≤ 'f'.toNat)
    || ('A'.toNat ≤ c.toNat && c.toNat ≤ 'F'.toNat)

/-- The value of a hex digit, either case (the lookup table of `HexDecoder`);
`0` for any other character. -/
def hexVal (c : Char) : Nat :=
  if '0'.toNat ≤ c.toNat && c.toNat ≤ '9'.toNat then c.toNat - '0'.toNat
  else if 'a'.toNat ≤ c.toNat && c.toNat ≤ 'f'.toNat then c.toNat - 'a'.toNat + 10
  else if 'A'.toNat ≤ c.toNat && c.toNat ≤ 'F'.toNat then c.toNat - 'A'.toNat + 10
  else 0

/-- Pairs up hex digits, high nibble first; a last digit without a partner is
dropped. -/
def hexPairs : List Char → List Nat
  | a :: b :: rest => (hexVal a * 16 + hexVal b) :: hexPairs rest
  | _ => []

/-- Modelled from the spec: the decoding half of the Hex Codec, which the code
takes from Crypto++ (`HexDecoder`, `Put`, `MessageEnd`, `Get`), a library that
is not under `src/`.  On text made of an even number of hex digits it returns
the bytes the text denotes.  The library has no failure path: it skips any
character that is not a hex digit and drops a trailing half byte, and this
definition does the same. -/
def hexDecode (text : List Char) : List Nat :=
  hexPairs (text.filter isxdigit)

/-- The lowercase hex digit of a value below 16. -/
def hexDigit (v : Nat) : Char :=
  if v < 10 then Char.ofNat ('0'.toNat + v) else Char.ofNat ('a'.toNat + (v - 10))

/-- Modelled from the spec: the encoding half of the Hex Codec, Crypto++
`HexEncoder` with `uppercase = false` as `dump_digest` builds it: two lowercase
hex digits per byte, high nibble first, no separator. -/
def hexEncode : List Nat → List Char
  | [] => []
  | b :: rest => hexDigit (b / 16) :: hexDigit (b % 16) :: hexEncode rest

/-! ## `print_digest` -/

/-- The function `print_digest` of `utils.cpp`: the characters written to
standard output. -/
def print_digest (digest : List Char) (file : List Char) (binary_mode : Bool)
    (new_line : Bool) : List Char :=
  digest ++ (if binary_mode then [' ', '*'] else [' ', ' ']) ++ file
    ++ (if new_line then ['\n'] else [])

/-! ## `read_cheksum` -/

/-- The lines that the loop `while (std::getline (file, line))` reads from a
stream holding `text`: a line ends at each newline, which is removed; the
characters after the last newline form a last line when there are any. -/
def getlines : List Char → List (List Char)
  | [] => []
  | c :: cs =>
    if c = '\n' then [] :: getlines cs
    else
      match getlines cs with
      | [] => [[c]]
      | l :: ls => (c :: l) :: ls

/-- A value of type `std::size_t`: unsigned arithmetic modulo `2 ^ 64`. -/
def size_t (x : Nat) : Nat :=
  x % 2 ^ 64

/-- The value of `i` when the `for` loop of `read_cheksum` ends: the index of
the first character that is not a hex digit, or the size of the line. -/
def scan : List Char → Nat
  | [] => 0
  | c :: cs => if isxdigit c then scan cs + 1 else 0

/-- The access `line[k]` of a `std::string` for `k` at most `line.size ()`: at
`k = line.size ()` it is the terminating null character. -/
def charAt (line : List Char) (k : Nat) : Char :=
  line.getD k (Char.ofNat 0)

/-- The body of the `while` loop of `read_cheksum` for one non-empty line, from
the `for` loop to the construction of `entry`. -/
def parse_line (line : List Char) (digest_size : Nat) (line_number : Nat) :
    Except Error checksum_entry_t :=
  let i := scan line
  -- the `for` loop: `checksum` is assigned only when it meets a non-hex character
  let scanned : Except Error (List Char) :=
    if i < line.length then
      let checksum := line.take i
      if checksum.isEmpty then Except.error (Error.no_checksum line_number)
      else if size_t checksum.length ≠ size_t (digest_size * 2) then
        Except.error (Error.invalid_checksum line_number)
      else Except.ok checksum
    else Except.ok []
  match scanned with
  | Except.error e => Except.error e
  | Except.ok checksum =>
    if i + 1 > line.length then Except.error (Error.invalid_format line_number)
    else
      let separator : Except Error Bool :=
        if charAt line i = ' ' then
          if charAt line (i + 1) = '*' then Except.ok true
          else if charAt line (i + 1) ≠ ' ' then
            Except.error (Error.invalid_format_in line_number)
          else Except.ok false
        else Except.ok false
      match separator with
      | Except.error e => Except.error e
      | Except.ok binary_mode =>
        -- `line.substr (i + 2)` throws when `i + 2 > line.size ()`
        if i + 2 > line.length then Except.error Error.out_of_range
        else
          let filename := line.drop (i + 2)
          if filename.isEmpty then Except.error (Error.invalid_filename line_number)
          else
            Except.ok
              { filename := filename, checksum := hexDecode checksum,
                binary_mode := binary_mode }

/-- The `while` loop of `read_cheksum` over the lines still to read, with the
current `line_number` and the `entries` pushed so far.  An empty line is skipped
by `continue`, which also skips `++line_number`. -/
def read_loop (digest_size : Nat) :
    List (List Char) → Nat → List checksum_entry_t → Except Error (List checksum_entry_t)
  | [], _, entries => Except.ok entries
  | line :: rest, line_number, entries =>
    if line.isEmpty then read_loop digest_size rest line_number entries
    else
      match parse_line line digest_size line_number with
      | Except.error e => Except.error e
      | Except.ok entry => read_loop digest_size rest (line_number + 1) (entries ++ [entry])

/-- The function `read_cheksum` of `utils.cpp`.  `file` is the content of the
file at `path`, or `none` when it cannot be opened. -/
def read_cheksum (file : Option (List Char)) (digest_size : Nat) :
    Except Error (List checksum_entry_t) :=
  match file with
  | some text => read_loop digest_size (getlines text) 1 []
  | none => Except.error Error.could_not_open

/-! ## `check_digest` and `dump_digest` -/

/-- What `check_digest` reports for an entry: `print_check_success` or
`print_check_fail`. -/
inductive Outcome where
  | SUCCESS
  | FAIL
deriving DecidableEq, Repr

/-- A run of `check_digest`: the reports written to standard output, in the
order written (the file name and the outcome printed after it), and how the run
ends: with the value returned, or without returning. -/
structure CheckRun where
  out : List (List Char × Outcome)
  result : Except Error Bool

/-- The buffer `digest` of `check_digest` after the `FileSource` pipeline has
run: `DIGESTSIZE` bytes, zero at first, into which the `ArraySink` stores the
bytes the hash produced, as many as fit. -/
def digest_buffer (hashed : List Nat) (DIGESTSIZE : Nat) : List Nat :=
  (hashed ++ List.replicate DIGESTSIZE 0).take DIGESTSIZE

/-- The test `std::memcmp (a, b, n) == 0`. -/
def memcmp_eq (a b : List Nat) (n : Nat) : Bool :=
  decide (a.take n = b.take n)

/-- The `for` loop of `check_digest` over the entries still to check, with the
current value of `success` and the reports written so far.  `hash filename
binary_mode` is the digest that `FileSource` with `HashFilter (hash, ...)`
computes for the file, or `none` when the file cannot be opened or read, in
which case `FileSource` throws and no handler catches the exception. -/
def check_loop (hash : List Char → Bool → Option (List Nat)) (DIGESTSIZE : Nat) :
    List checksum_entry_t → Bool → List (List Char × Outcome) → CheckRun
  | [], success, out => { out := out, result := Except.ok success }
  | entry :: rest, success, out =>
    if entry.checksum.length ≠ DIGESTSIZE then
      check_loop hash DIGESTSIZE rest false (out ++ [(entry.filename, Outcome.FAIL)])
    else
      match hash entry.filename entry.binary_mode with
      | none => { out := out, result := Except.error Error.file_store_err }
      | some hashed =>
        if memcmp_eq entry.checksum (digest_buffer hashed DIGESTSIZE) DIGESTSIZE then
          check_loop hash DIGESTSIZE rest success (out ++ [(entry.filename, Outcome.SUCCESS)])
        else
          check_loop hash DIGESTSIZE rest false (out ++ [(entry.filename, Outcome.FAIL)])

/-- The loop of `check_digest` from its initial state (`success = true`, nothing
written) over a given list of entries. -/
def check_entries (hash : List Char → Bool → Option (List Nat)) (DIGESTSIZE : Nat)
    (entries : List checksum_entry_t) : CheckRun :=
  check_loop hash DIGESTSIZE entries true []

/-- The template `check_digest` of `utils.hpp` for an algorithm with digest size
`DIGESTSIZE`; `checksum_file` is the content of the manifest, or `none` when it
cannot be opened. -/
def check_digest (hash : List Char → Bool → Option (List Nat)) (DIGESTSIZE : Nat)
    (checksum_file : Option (List Char)) : CheckRun :=
  match read_cheksum checksum_file DIGESTSIZE with
  | Except.error e => { out := [], result := Except.error e }
  | Except.ok entries => check_entries hash DIGESTSIZE entries

/-- The template `dump_digest` of `utils.hpp`: the characters written to
standard output for one file. -/
def dump_digest (hash : List Char → Bool → Option (List Nat)) (path : List Char)
    (binary_mode : Bool) (new_line : Bool) : Except Error (List Char) :=
  match hash path binary_mode with
  | none => Except.error Error.file_store_err
  | some digest => Except.ok (print_digest (hexEncode digest) path binary_mode new_line)

/-! ## Vocabulary of the statements

The definitions below are not code of the program.  They name the inputs and
the expected results that the theorems speak about. -/

/-- A manifest line of the form `H ++ " " ++ m ++ F`, with `m` a star when
`star` holds and a space otherwise. -/
structure manifest_line where
  H : List Char
  star : Bool
  F : List Char

/-- The text of a manifest line; `none` is an empty line. -/
def render : Option manifest_line → List Char
  | none => []
  | some w => w.H ++ ' ' :: (if w.star then '*' else ' ') :: w.F

/-- The conditions on a manifest line for digest size `n`: `H` is exactly
`2 * n` hex digits of either case, `F` is not empty, and `F`, being part of one
line, holds no newline. -/
def well_formed (n : Nat) (w : manifest_line) : Prop :=
  w.H.length = 2 * n ∧ (∀ c ∈ w.H, isxdigit c = true) ∧ w.F ≠ [] ∧ '\n' ∉ w.F

/-- The `n` bytes that a text of `2 * n` hex digits denotes: byte `k` has the
digit at `2 * k` as its high half and the digit at `2 * k + 1` as its low
half. -/
def denotes (H : List Char) (n : Nat) : List Nat :=
  (List.range n).map
    (fun k => 16 * hexVal (H.getD (2 * k) '0') + hexVal (H.getD (2 * k + 1) '0'))

/-- The entry expected for a manifest line; none for an empty line. -/
def expected (n : Nat) : Option manifest_line → Option checksum_entry_t
  | none => none
  | some w => some { filename := w.F, checksum := denotes w.H n, binary_mode := w.star }

/-- The text made of the given lines, each followed by a newline. -/
def terminated : List (List Char) → List Char
  | [] => []
  | l :: ls => l ++ '\n' :: terminated ls

/-- The outcome expected for an entry: `SUCCESS` exactly when its checksum has
`DIGESTSIZE` bytes and equals the digest computed for its file. -/
def verdict (hash : List Char → Bool → Option (List Nat)) (DIGESTSIZE : Nat)
    (entry : checksum_entry_t) : Outcome :=
  if entry.checksum.length = DIGESTSIZE
      ∧ hash entry.filename entry.binary_mode = some entry.checksum then
    Outcome.SUCCESS
  else Outcome.FAIL

/-! ## Facts about the hex codec -/

theorem hexPairs_length : ∀ (l : List Char), (hexPairs l).length = l.length / 2
  | [] => rfl
  | [_] => by simp [hexPairs]
  | a :: b :: rest => by
    simp only [hexPairs, List.length_cons, hexPairs_length rest]
    omega

theorem filter_isxdigit_of_all (l : List Char) (h : ∀ c ∈ l, isxdigit c = true) :
    l.filter isxdigit = l :=
  List.filter_eq_self.mpr h

theorem hexDecode_length (l : List Char) (h : ∀ c ∈ l, isxdigit c = true) :
    (hexDecode l).length = l.length / 2 := by
  rw [hexDecode, filter_isxdigit_of_all l h, hexPairs_length]

/-! ## Facts about the scan of a line -/

theorem scan_le (l : List Char) : scan l ≤ l.length := by
  induction l with
  | nil => simp [scan]
  | cons c cs ih =>
    simp only [scan, List.length_cons]
    split <;> omega

theorem take_scan_hex (l : List Char) : ∀ c ∈ l.take (scan l), isxdigit c = true := by
  induction l with
  | nil => simp [scan]
  | cons c cs ih =>
    intro x hx
    by_cases hc : isxdigit c = true
    · simp only [scan, hc, if_true, List.take_succ_cons, List.mem_cons] at hx
      rcases hx with rfl | hx
      · exact hc
      · exact ih x hx
    · simp [scan, hc] at hx

theorem scan_append (H : List Char) (x : Char) (rest : List Char)
    (hH : ∀ c ∈ H, isxdigit c = true) (hx : isxdigit x = false) :
    scan (H ++ x :: rest) = H.length := by
  induction H with
  | nil => simp [scan, hx]
  | cons c cs ih =>
    have hc : isxdigit c = true := hH c (List.mem_cons_self _ _)
    have := ih (fun d hd => hH d (List.mem_cons_of_mem _ hd))
    simp [scan, hc, this]

theorem scan_all_hex (H : List Char) (hH : ∀ c ∈ H, isxdigit c = true) :
    scan H = H.length := by
  induction H with
  | nil => rfl
  | cons c cs ih =>
    have hc : isxdigit c = true := hH c (List.mem_cons_self _ _)
    have := ih (fun d hd => hH d (List.mem_cons_of_mem _ hd))
    simp [scan, hc, this]

/-- The index at which the scan stops holds a character that is not a hex
digit. -/
theorem charAt_scan (l : List Char) (h : scan l < l.length) :
    isxdigit (charAt l (scan l)) = false := by
  induction l with
  | nil => simp at h
  | cons c cs ih =>
    by_cases hc : isxdigit c = true
    · simp only [scan, hc, if_true, List.length_cons] at h ⊢
      have := ih (by omega)
      simpa [charAt] using this
    · simp only [Bool.not_eq_true] at hc
      simp [scan, hc, charAt]

/-! ## Facts about `parse_line` -/

/-- The body of the loop as one chain of tests on the value `i` of the scan, in
the order in which the code reaches its exits. -/
theorem parse_line_eq (line : List Char) (n ln : Nat) :
    parse_line line n ln =
      if scan line = line.length then Except.error (Error.invalid_format ln)
      else if scan line = 0 then Except.error (Error.no_checksum ln)
      else if size_t (scan line) ≠ size_t (n * 2) then
        Except.error (Error.invalid_checksum ln)
      else if charAt line (scan line) = ' ' ∧ charAt line (scan line + 1) ≠ '*'
          ∧ charAt line (scan line + 1) ≠ ' ' then
        Except.error (Error.invalid_format_in ln)
      else if scan line + 1 = line.length then Except.error Error.out_of_range
      else if scan line + 2 = line.length then Except.error (Error.invalid_filename ln)
      else
        Except.ok
          { filename := line.drop (scan line + 2),
            checksum := hexDecode (line.take (scan line)),
            binary_mode :=
              decide (charAt line (scan line) = ' ' ∧ charAt line (scan line + 1) = '*') } := by
  have hle := scan_le line
  unfold parse_line
  simp only [List.isEmpty_eq_true, List.take_eq_nil_iff, List.length_take]
  by_cases h0 : scan line = line.length
  · simp [h0]
  · have hlt : scan line < line.length := by omega
    have hmin : min (scan line) line.length = scan line := by omega
    have hne : line ≠ [] := by
      intro hnil
      simp [hnil] at hlt
    simp only [hlt, if_true, h0, if_false, hmin, hne, or_false]
    by_cases h1 : scan line = 0
    · simp [h1]
    · by_cases h2 : size_t (scan line) = size_t (n * 2)
      · have ha : ¬ line.length < scan line + 1 := by omega
        simp only [h1, h2, ha, if_false, not_true_eq_false, ne_eq]
        by_cases hs : charAt line (scan line) = ' '
        · by_cases hb : charAt line (scan line + 1) = '*'
          · have hb2 : scan line + 1 ≠ line.length := by
              intro hEq
              rw [charAt, List.getD_eq_default _ _ (by omega)] at hb
              exact absurd hb (by decide)
            have hc : ¬ line.length < scan line + 2 := by omega
            by_cases hd : scan line + 2 = line.length
            · have : line.length ≤ scan line + 2 := by omega
              simp [hs, hb, hb2, hc, hd, this]
            · have : ¬ line.length ≤ scan line + 2 := by omega
              simp [hs, hb, hb2, hc, hd, this]
          · by_cases hb1 : charAt line (scan line + 1) = ' '
            · have hb2 : scan line + 1 ≠ line.length := by
                intro hEq
                rw [charAt, List.getD_eq_default _ _ (by omega)] at hb1
                exact absurd hb1 (by decide)
              have hc : ¬ line.length < scan line + 2 := by omega
              by_cases hd : scan line + 2 = line.length
              · have : line.length ≤ scan line + 2 := by omega
                simp [hs, hb, hb1, hb2, hc, hd, this]
              · have : ¬ line.length ≤ scan line + 2 := by omega
                simp [hs, hb, hb1, hb2, hc, hd, this]
            · simp [hs, hb, hb1]
        · by_cases hb2 : scan line + 1 = line.length
          · have : line.length < scan line + 2 := by omega
            simp [hs, hb2, this]
          · have hc : ¬ line.length < scan line + 2 := by omega
            by_cases hd : scan line + 2 = line.length
            · have : line.length ≤ scan line + 2 := by omega
              simp [hs, hb2, hc, hd, this]
            · have : ¬ line.length ≤ scan line + 2 := by omega
              simp [hs, hb2, hc, hd, this]
      · simp [h1, h2]

theorem parse_line_ok_inv (line : List Char) (n ln : Nat) (e : checksum_entry_t)
    (h : parse_line line n ln = Except.ok e) :
    0 < scan line ∧ size_t (scan line) = size_t (n * 2) ∧ scan line + 2 < line.length
      ∧ e.filename = line.drop (scan line + 2)
      ∧ e.checksum = hexDecode (line.take (scan line)) := by
  have hle := scan_le line
  rw [parse_line_eq] at h
  split_ifs at h with h0 h1 h2 h3 h4 h5
  simp only [Except.ok.injEq] at h
  subst h
  simp only [ne_eq, Decidable.not_not] at h2
  refine ⟨by omega, h2, by omega, rfl, rfl⟩

theorem size_t_of_lt (x : Nat) (h : x < 2 ^ 64) : size_t x = x :=
  Nat.mod_eq_of_lt h

/-- For a digest size below `2 ^ 63` and a line shorter than `2 ^ 64`, no size
wraps and the checksum of an accepted line has `digest_size` bytes. -/
theorem parse_line_ok_checksum_length (line : List Char) (n ln : Nat) (e : checksum_entry_t)
    (hn : n < 2 ^ 63) (hline : line.length < 2 ^ 64)
    (h : parse_line line n ln = Except.ok e) : e.checksum.length = n := by
  obtain ⟨_, h2, h3, _, h5⟩ := parse_line_ok_inv line n ln e h
  rw [size_t_of_lt _ (by omega), size_t_of_lt _ (by omega)] at h2
  rw [h5, hexDecode_length _ (take_scan_hex line), List.length_take]
  have : min (scan line) line.length = n * 2 := by omega
  rw [this]
  omega

theorem parse_line_ok_filename (line : List Char) (n ln : Nat) (e : checksum_entry_t)
    (h : parse_line line n ln = Except.ok e) : e.filename ≠ [] := by
  obtain ⟨_, _, h3, h4, _⟩ := parse_line_ok_inv line n ln e h
  rw [h4]
  intro hnil
  have := congrArg List.length hnil
  simp only [List.length_drop, List.length_nil] at this
  omega

/-- The success of `parse_line` and the entry it builds do not depend on the
line number, which only appears in error messages. -/
theorem parse_line_ok_line_number (line : List Char) (n ln ln2 : Nat) (e : checksum_entry_t)
    (h : parse_line line n ln = Except.ok e) : parse_line line n ln2 = Except.ok e := by
  rw [parse_line_eq] at h ⊢
  split_ifs at h ⊢ with h0 h1 h2 h3 h4 h5
  exact h

/-! ## Facts about `read_loop` -/

/-- A property that holds of the entries pushed so far and of every entry that
`parse_line` builds from one of the lines holds of every entry that `read_loop`
returns. -/
theorem read_loop_inv (P : checksum_entry_t → Prop) (n : Nat) :
    ∀ (ls : List (List Char)) (ln : Nat) (acc es : List checksum_entry_t),
      (∀ line ∈ ls, ∀ k e, parse_line line n k = Except.ok e → P e) →
      (∀ e ∈ acc, P e) → read_loop n ls ln acc = Except.ok es → ∀ e ∈ es, P e := by
  intro ls
  induction ls with
  | nil =>
    intro ln acc es _ hacc h
    simp only [read_loop, Except.ok.injEq] at h
    subst h
    exact hacc
  | cons line rest ih =>
    intro ln acc es hP hacc h
    have hPrest : ∀ l ∈ rest, ∀ k e, parse_line l n k = Except.ok e → P e :=
      fun l hl => hP l (List.mem_cons_of_mem _ hl)
    rw [read_loop] at h
    by_cases hb : line.isEmpty = true
    · simp only [hb, if_true] at h
      exact ih ln acc es hPrest hacc h
    · simp only [hb] at h
      cases hp : parse_line line n ln with
      | error err => simp [hp] at h
      | ok entry =>
        simp only [hp] at h
        refine ih (ln + 1) (acc ++ [entry]) es hPrest ?_ h
        intro x hx
        rcases List.mem_append.mp hx with hx | hx
        · exact hacc x hx
        · simp only [List.mem_singleton] at hx
          subst hx
          exact hP line (List.mem_cons_self _ _) ln x hp

/-! ## Facts about `getlines` -/

theorem getlines_line_newline (l : List Char) (rest : List Char) (hl : '\n' ∉ l) :
    getlines (l ++ '\n' :: rest) = l :: getlines rest := by
  induction l with
  | nil => simp [getlines]
  | cons c cs ih =>
    have hc : c ≠ '\n' := fun hEq => hl (hEq ▸ List.mem_cons_self _ _)
    have hcs : '\n' ∉ cs := fun hm => hl (List.mem_cons_of_mem _ hm)
    simp [getlines, hc, ih hcs]

theorem getlines_last_line (l : List Char) (hl : '\n' ∉ l) (hne : l ≠ []) :
    getlines l = [l] := by
  induction l with
  | nil => exact absurd rfl hne
  | cons c cs ih =>
    have hc : c ≠ '\n' := fun hEq => hl (hEq ▸ List.mem_cons_self _ _)
    have hcs : '\n' ∉ cs := fun hm => hl (List.mem_cons_of_mem _ hm)
    cases cs with
    | nil => simp [getlines, hc]
    | cons d ds =>
      have := ih hcs (by simp)
      simp [getlines, hc] at this ⊢
      simp [this]

theorem getlines_terminated (ls : List (List Char)) (rest : List Char)
    (hls : ∀ l ∈ ls, '\n' ∉ l) :
    getlines (terminated ls ++ rest) = ls ++ getlines rest := by
  induction ls with
  | nil => simp [terminated]
  | cons l ls ih =>
    have h1 : '\n' ∉ l := hls l (List.mem_cons_self _ _)
    have h2 := ih (fun x hx => hls x (List.mem_cons_of_mem _ hx))
    simp only [terminated, List.append_assoc, List.cons_append]
    rw [getlines_line_newline l _ h1, h2]

/-! ## The hex codec round trip -/

theorem isxdigit_hexDigit : ∀ v, v < 16 → isxdigit (hexDigit v) = true := by
  decide

theorem hexVal_hexDigit : ∀ v, v < 16 → hexVal (hexDigit v) = v := by
  decide

theorem hexEncode_length (d : List Nat) : (hexEncode d).length = 2 * d.length := by
  induction d with
  | nil => rfl
  | cons b rest ih =>
    simp only [hexEncode, List.length_cons, ih]
    omega

theorem hexEncode_hex (d : List Nat) (hd : ∀ b ∈ d, b < 256) :
    ∀ c ∈ hexEncode d, isxdigit c = true := by
  induction d with
  | nil => simp [hexEncode]
  | cons b rest ih =>
    have hb : b < 256 := hd b (List.mem_cons_self _ _)
    intro c hc
    simp only [hexEncode, List.mem_cons] at hc
    rcases hc with rfl | rfl | hc
    · exact isxdigit_hexDigit _ (by omega)
    · exact isxdigit_hexDigit _ (by omega)
    · exact ih (fun x hx => hd x (List.mem_cons_of_mem _ hx)) c hc

theorem hexPairs_hexEncode (d : List Nat) (hd : ∀ b ∈ d, b < 256) :
    hexPairs (hexEncode d) = d := by
  induction d with
  | nil => rfl
  | cons b rest ih =>
    have hb : b < 256 := hd b (List.mem_cons_self _ _)
    simp only [hexEncode, hexPairs, ih (fun x hx => hd x (List.mem_cons_of_mem _ hx))]
    rw [hexVal_hexDigit _ (by omega), hexVal_hexDigit _ (by omega)]
    congr 1
    omega

theorem hexDecode_hexEncode (d : List Nat) (hd : ∀ b ∈ d, b < 256) :
    hexDecode (hexEncode d) = d := by
  rw [hexDecode, filter_isxdigit_of_all _ (hexEncode_hex d hd), hexPairs_hexEncode d hd]

theorem hexPairs_eq_denotes : ∀ (n : Nat) (H : List Char), H.length = 2 * n →
    hexPairs H = denotes H n := by
  intro n
  induction n with
  | zero =>
    intro H hH
    have : H = [] := List.length_eq_zero.mp (by omega)
    subst this
    rfl
  | succ n ih =>
    intro H hH
    match H, hH with
    | a :: b :: rest, hH =>
      have hrest : rest.length = 2 * n := by
        simp only [List.length_cons] at hH
        omega
      simp only [hexPairs, ih rest hrest, denotes, List.range_succ_eq_map, List.map_cons,
        List.map_map]
      congr 1
      simp [Nat.mul_comm]

theorem hexDecode_eq_denotes (n : Nat) (H : List Char) (hlen : H.length = 2 * n)
    (hH : ∀ c ∈ H, isxdigit c = true) : hexDecode H = denotes H n := by
  rw [hexDecode, filter_isxdigit_of_all H hH, hexPairs_eq_denotes n H hlen]

/-! ## Well-formed lines are accepted -/

theorem charAt_append_right (H : List Char) (rest : List Char) (k : Nat) :
    charAt (H ++ rest) (H.length + k) = charAt rest k := by
  induction H with
  | nil => simp
  | cons c cs ih =>
    have : (c :: cs).length + k = (cs.length + k) + 1 := by
      simp only [List.length_cons]
      omega
    rw [this]
    simpa [charAt] using ih

/-- A line made of `digest_size * 2` hex digits, at least two, a space, a space
or a star, and a non-empty file name is accepted, whatever the line number. -/
theorem parse_line_well_formed (n ln : Nat) (hn : 1 ≤ n) (H F : List Char) (star : Bool)
    (hlen : H.length = 2 * n) (hH : ∀ c ∈ H, isxdigit c = true) (hF : F ≠ []) :
    parse_line (H ++ ' ' :: (if star then '*' else ' ') :: F) n ln
      = Except.ok { filename := F, checksum := hexDecode H, binary_mode := star } := by
  have hscan : scan (H ++ ' ' :: (if star then '*' else ' ') :: F) = H.length :=
    scan_append H ' ' _ hH (by decide)
  have hFlen : 0 < F.length := List.length_pos.mpr hF
  have hc0 : charAt (H ++ ' ' :: (if star then '*' else ' ') :: F) H.length = ' ' := by
    have := charAt_append_right H (' ' :: (if star then '*' else ' ') :: F) 0
    simpa [charAt] using this
  have hc1 : charAt (H ++ ' ' :: (if star then '*' else ' ') :: F) (H.length + 1)
      = (if star then '*' else ' ') := by
    have := charAt_append_right H (' ' :: (if star then '*' else ' ') :: F) 1
    simpa [charAt] using this
  have hdrop : (H ++ ' ' :: (if star then '*' else ' ') :: F).drop (H.length + 2) = F := by
    rw [List.drop_append]
    rfl
  have htake : (H ++ ' ' :: (if star then '*' else ' ') :: F).take H.length = H := by
    simp
  rw [parse_line_eq, hscan, hc0, hc1, hdrop, htake]
  have e1 : ¬ H.length = (H ++ ' ' :: (if star then '*' else ' ') :: F).length := by
    simp only [List.length_append, List.length_cons]
    omega
  have e2 : ¬ H.length = 0 := by omega
  have e3 : ¬ size_t H.length ≠ size_t (n * 2) := by
    rw [hlen, Nat.mul_comm]
    simp
  have e4 : ¬ H.length + 1 = (H ++ ' ' :: (if star then '*' else ' ') :: F).length := by
    simp only [List.length_append, List.length_cons]
    omega
  have e5 : ¬ H.length + 2 = (H ++ ' ' :: (if star then '*' else ' ') :: F).length := by
    simp only [List.length_append, List.length_cons]
    omega
  simp only [e1, e2, e3, e4, e5, if_false]
  cases star <;> simp

theorem well_formed_no_newline (n : Nat) (w : manifest_line) (hw : well_formed n w) :
    '\n' ∉ render (some w) := by
  obtain ⟨_, hH, _, hF⟩ := hw
  intro hm
  simp only [render, List.mem_append, List.mem_cons] at hm
  rcases hm with hm | hm | hm | hm
  · exact absurd (hH _ hm) (by decide)
  · exact absurd hm (by decide)
  · cases hs : w.star <;> simp [hs] at hm
  · exact hF hm

theorem render_no_newline (n : Nat) (m : Option manifest_line)
    (hm : ∀ w, m = some w → well_formed n w) : '\n' ∉ render m := by
  cases m with
  | none => simp [render]
  | some w => exact well_formed_no_newline n w (hm w rfl)

theorem render_some_ne_nil (w : manifest_line) : render (some w) ≠ [] := by
  simp [render]

/-- The loop over well-formed and empty lines: every well-formed line adds its
expected entry, in order, and no line fails. -/
theorem read_loop_well_formed (n : Nat) (hn : 1 ≤ n) :
    ∀ (ms : List (Option manifest_line)) (ln : Nat) (acc : List checksum_entry_t),
      (∀ w, some w ∈ ms → well_formed n w) →
      read_loop n (ms.map render) ln acc = Except.ok (acc ++ ms.filterMap (expected n)) := by
  intro ms
  induction ms with
  | nil => intro ln acc _; simp [read_loop]
  | cons m ms ih =>
    intro ln acc hwf
    have hrest : ∀ w, some w ∈ ms → well_formed n w :=
      fun w hw => hwf w (List.mem_cons_of_mem _ hw)
    cases m with
    | none =>
      simp only [List.map_cons, render, read_loop, List.isEmpty_nil, if_true]
      rw [ih ln acc hrest]
      simp [expected]
    | some w =>
      obtain ⟨hlen, hH, hF, _⟩ := hwf w (List.mem_cons_self _ _)
      have hne : (render (some w)).isEmpty = false := by simp [render]
      have hp := parse_line_well_formed n ln hn w.H w.F w.star hlen hH hF
      simp only [List.map_cons, read_loop, hne]
      simp only [render] at hp ⊢
      rw [hp]
      simp only [Bool.false_eq_true, if_false]
      rw [ih (ln + 1) _ hrest, hexDecode_eq_denotes n w.H hlen hH]
      simp [expected]

theorem digest_buffer_of_length (d : List Nat) (D : Nat) (h : d.length = D) :
    digest_buffer d D = d := by
  subst h
  simp [digest_buffer]

theorem memcmp_eq_iff (a b : List Nat) (D : Nat) (ha : a.length = D) (hb : b.length = D) :
    memcmp_eq a b D = true ↔ a = b := by
  subst ha
  simp [memcmp_eq, List.take_of_length_le (Nat.le_of_eq hb)]

/-- The template `check_digest` runs its loop on the entries that `read_cheksum`
returns. -/
theorem check_digest_eq (hash : List Char → Bool → Option (List Nat)) (D : Nat)
    (checksum_file : Option (List Char)) (entries : List checksum_entry_t)
    (h : read_cheksum checksum_file D = Except.ok entries) :
    check_digest hash D checksum_file = check_entries hash D entries := by
  simp [check_digest, h]

/-- The loop of `check_digest` when no `FileSource` throws: one report per
entry, and `success` stays true only while every report is `SUCCESS`. -/
theorem check_loop_all_hashed (hash : List Char → Bool → Option (List Nat)) (D : Nat)
    (hsize : ∀ f b d, hash f b = some d → d.length = D) :
    ∀ (es : List checksum_entry_t) (s : Bool) (out : List (List Char × Outcome)),
      (∀ e ∈ es, ∃ d, hash e.filename e.binary_mode = some d) →
      check_loop hash D es s out
        = { out := out ++ es.map (fun e => (e.filename, verdict hash D e)),
            result := Except.ok
              (s && es.all (fun e => decide (verdict hash D e = Outcome.SUCCESS))) } := by
  intro es
  induction es with
  | nil => intro s out _; simp [check_loop]
  | cons e es ih =>
    intro s out hall
    have hrest : ∀ x ∈ es, ∃ d, hash x.filename x.binary_mode = some d :=
      fun x hx => hall x (List.mem_cons_of_mem _ hx)
    obtain ⟨d, hd⟩ := hall e (List.mem_cons_self _ _)
    have hdlen := hsize _ _ _ hd
    rw [check_loop]
    by_cases hlen : e.checksum.length = D
    · have hbuf := digest_buffer_of_length d D hdlen
      have hcmp := memcmp_eq_iff e.checksum d D hlen hdlen
      simp only [hlen, ne_eq, not_true_eq_false, if_false, hd, hbuf]
      by_cases heq : e.checksum = d
      · have hv : verdict hash D e = Outcome.SUCCESS := by
          unfold verdict
          rw [if_pos ⟨hlen, by rw [hd, heq]⟩]
        simp only [hcmp.mpr heq, if_true]
        rw [ih s _ hrest]
        simp [hv]
      · have hv : verdict hash D e = Outcome.FAIL := by
          have : ¬ d = e.checksum := fun h => heq h.symm
          simp [verdict, hlen, hd, this]
        have hc : memcmp_eq e.checksum d D = false := by
          cases hm : memcmp_eq e.checksum d D with
          | false => rfl
          | true => exact absurd (hcmp.mp hm) heq
        simp only [hc, Bool.false_eq_true, if_false]
        rw [ih false _ hrest]
        simp [hv]
    · have hv : verdict hash D e = Outcome.FAIL := by
        simp [verdict, hlen]
      simp only [hlen, ne_eq, not_false_eq_true, if_true]
      rw [ih false _ hrest]
      simp [hv]

/-- The loop of `check_digest` up to the first entry whose file cannot be
hashed: the reports of the entries before it are written, then the exception
ends the run. -/
theorem check_loop_abort (hash : List Char → Bool → Option (List Nat)) (D : Nat)
    (e : checksum_entry_t) (post : List checksum_entry_t)
    (he : e.checksum.length = D) (hfail : hash e.filename e.binary_mode = none) :
    ∀ (pre : List checksum_entry_t) (s : Bool) (out : List (List Char × Outcome)),
      (∀ x ∈ pre, x.checksum.length ≠ D ∨ ∃ d, hash x.filename x.binary_mode = some d) →
      check_loop hash D (pre ++ e :: post) s out
          = { out := (check_loop hash D pre s out).out,
              result := Except.error Error.file_store_err }
        ∧ (check_loop hash D pre s out).out.length = out.length + pre.length := by
  intro pre
  induction pre with
  | nil =>
    intro s out _
    simp [check_loop, he, hfail]
  | cons x pre ih =>
    intro s out hpre
    have hrest : ∀ y ∈ pre, y.checksum.length ≠ D ∨ ∃ d, hash y.filename y.binary_mode = some d :=
      fun y hy => hpre y (List.mem_cons_of_mem _ hy)
    simp only [List.cons_append, check_loop]
    by_cases hlen : x.checksum.length = D
    · rcases hpre x (List.mem_cons_self _ _) with hx | ⟨d, hd⟩
      · exact absurd hlen hx
      · simp only [hlen, ne_eq, not_true_eq_false, if_false, hd]
        split
        · obtain ⟨h1, h2⟩ := ih s (out ++ [(x.filename, Outcome.SUCCESS)]) hrest
          refine ⟨h1, ?_⟩
          rw [h2]
          simp only [List.length_append, List.length_cons, List.length_nil]
          omega
        · obtain ⟨h1, h2⟩ := ih false (out ++ [(x.filename, Outcome.FAIL)]) hrest
          refine ⟨h1, ?_⟩
          rw [h2]
          simp only [List.length_append, List.length_cons, List.length_nil]
          omega
    · simp only [hlen, ne_eq, not_false_eq_true, if_true]
      obtain ⟨h1, h2⟩ := ih false (out ++ [(x.filename, Outcome.FAIL)]) hrest
      refine ⟨h1, ?_⟩
      rw [h2]
      simp only [List.length_append, List.length_cons, List.length_nil]
      omega

/-- The exception of `line.substr (i + 2)` is thrown exactly for a line whose
run of hex digits has the expected length and is followed by one single
character that is not a space. -/
theorem parse_line_out_of_range_iff (line : List Char) (n ln : Nat) :
    parse_line line n ln = Except.error Error.out_of_range
      ↔ (0 < scan line ∧ size_t (scan line) = size_t (n * 2)
          ∧ scan line + 1 = line.length ∧ charAt line (scan line) ≠ ' ') := by
  rw [parse_line_eq]
  constructor
  · intro h
    split_ifs at h with h0 h1 h2 h3 h4 h5 <;> try (simp at h; done)
    simp only [ne_eq, Decidable.not_not] at h2
    refine ⟨by omega, h2, h4, ?_⟩
    intro hs
    apply h3
    have hnul : charAt line (scan line + 1) = Char.ofNat 0 := by
      rw [charAt, List.getD_eq_default _ _ (by omega)]
    rw [hnul]
    exact ⟨hs, by decide, by decide⟩
  · rintro ⟨h1, h2, h3, h4⟩
    have e0 : ¬ scan line = line.length := by omega
    have e1 : ¬ scan line = 0 := by omega
    simp [e0, e1, h2, h3, h4]

/-! ## The claims -/

/-- C1. Round trip from a dump line to the parser: for a digest size `n` of at
least 1, bytes `d` of length `n`, a non-empty file name `f` without newline and
any `binary_mode`, the text that `print_digest` writes for the lowercase hex
encoding of `d`, with or without the final newline, is read back by
`read_cheksum` as exactly one entry, with file name `f`, checksum `d` and the
same `binary_mode`. -/
theorem print_digest_read_cheksum_round_trip (n : Nat) (hn : 1 ≤ n) (d : List Nat)
    (hd : d.length = n) (hb : ∀ x ∈ d, x < 256) (f : List Char) (hf : f ≠ [])
    (hnl : '\n' ∉ f) (b new_line : Bool) :
    read_cheksum (some (print_digest (hexEncode d) f b new_line)) n
      = Except.ok [{ filename := f, checksum := d, binary_mode := b }] := by
  have hhex := hexEncode_hex d hb
  have hlen : (hexEncode d).length = 2 * n := by rw [hexEncode_length, hd]
  have hline : print_digest (hexEncode d) f b new_line
      = (hexEncode d ++ ' ' :: (if b then '*' else ' ') :: f)
          ++ (if new_line then ['\n'] else []) := by
    cases b <;> simp [print_digest]
  have hno : '\n' ∉ hexEncode d ++ ' ' :: (if b then '*' else ' ') :: f :=
    well_formed_no_newline n ⟨hexEncode d, b, f⟩ ⟨hlen, hhex, hf, hnl⟩
  have hlines : getlines (print_digest (hexEncode d) f b new_line)
      = [hexEncode d ++ ' ' :: (if b then '*' else ' ') :: f] := by
    rw [hline]
    cases new_line with
    | true =>
      simp only [if_true]
      rw [getlines_line_newline _ [] hno]
      rfl
    | false =>
      simp only [Bool.false_eq_true, if_false, List.append_nil]
      exact getlines_last_line _ hno (by simp)
  have hp := parse_line_well_formed n 1 hn (hexEncode d) f b hlen hhex hf
  have hne : (hexEncode d ++ ' ' :: (if b then '*' else ' ') :: f).isEmpty = false := by
    simp
  simp only [read_cheksum, hlines, read_loop, hne, hp, hexDecode_hexEncode d hb,
    Bool.false_eq_true, if_false, List.nil_append]

/-- Witness of C1: one byte `0xab`, file `f`, binary mode, with the newline. -/
theorem print_digest_read_cheksum_round_trip_witness :
    read_cheksum (some (print_digest (hexEncode [171]) ['f'] true true)) 1
      = Except.ok [{ filename := ['f'], checksum := [171], binary_mode := true }] :=
  print_digest_read_cheksum_round_trip 1 (by decide) [171] rfl (by decide) ['f'] (by simp)
    (by decide) true true

/-- C2. Parsing a well-formed manifest: for a digest size `n` of at least 1 and
a manifest whose lines are empty or of the form `H ++ " " ++ m ++ F` with `H`
exactly `2 * n` hex digits of either case, `m` a space or a star and `F` not
empty (the last line with or without its newline), `read_cheksum` returns one
entry per non-empty line, in the order of the lines, with file name `F`, the
`n` bytes that `H` denotes as checksum, and `binary_mode` true exactly when `m`
is a star. -/
theorem read_cheksum_well_formed_manifest (n : Nat) (hn : 1 ≤ n)
    (ms : List (Option manifest_line)) (last : Option manifest_line)
    (hwf : ∀ w, some w ∈ ms ++ [last] → well_formed n w) :
    read_cheksum (some (terminated (ms.map render) ++ render last)) n
      = Except.ok ((ms ++ [last]).filterMap (expected n)) := by
  have hms : ∀ l ∈ ms.map render, '\n' ∉ l := by
    intro l hl
    obtain ⟨m, hm, rfl⟩ := List.mem_map.mp hl
    exact render_no_newline n m
      (fun w hw => hwf w (List.mem_append_left _ (hw ▸ hm)))
  have hlast : getlines (render last) = ([last].filterMap (fun m => m.map some)).map render := by
    cases last with
    | none => rfl
    | some w =>
      have hw := hwf w (List.mem_append_right _ (List.mem_singleton_self _))
      rw [getlines_last_line _ (well_formed_no_newline n w hw) (render_some_ne_nil w)]
      rfl
  have hexp : ([last].filterMap (fun m => m.map some)).filterMap (expected n)
      = [last].filterMap (expected n) := by
    cases last <;> rfl
  have hwf2 : ∀ w, some w ∈ ms ++ [last].filterMap (fun m => m.map some) → well_formed n w := by
    intro w hw
    apply hwf w
    rcases List.mem_append.mp hw with h | h
    · exact List.mem_append_left _ h
    · cases last with
      | none => simp at h
      | some v =>
        simp only [List.filterMap_cons, Option.map_some', List.filterMap_nil,
          List.mem_singleton] at h
        exact List.mem_append_right _ (by simp [h])
  simp only [read_cheksum]
  rw [getlines_terminated _ _ hms, hlast, ← List.map_append,
    read_loop_well_formed n hn _ 1 [] hwf2, List.nil_append, List.filterMap_append, hexp,
    ← List.filterMap_append]

/-- Witness of C2: digest size 1, a text-mode line, an empty line and a
binary-mode line with upper-case digits and a space in the file name. -/
theorem read_cheksum_well_formed_manifest_witness :
    read_cheksum (some "ab  f\n\nCD *g h\n".toList) 1
      = Except.ok
          [{ filename := ['f'], checksum := [171], binary_mode := false },
           { filename := ['g', ' ', 'h'], checksum := [205], binary_mode := true }] :=
  read_cheksum_well_formed_manifest 1 (by decide)
    [some ⟨['a', 'b'], false, ['f']⟩, none, some ⟨['C', 'D'], true, ['g', ' ', 'h']⟩] none
    (by
      intro w hw
      simp only [List.cons_append, List.nil_append, List.mem_cons, Option.some.injEq,
        List.mem_singleton, reduceCtorEq, List.not_mem_nil, or_false, false_or] at hw
      rcases hw with rfl | rfl
      · exact ⟨rfl, by decide, by simp, by decide⟩
      · exact ⟨rfl, by decide, by simp, by decide⟩)

/-- C3 (the code departs from the claim). For digest size 16, the line made of
the 32 hex digits `d41d8cd98f00b204e9800998ecf8427e`, a tab, a space and
`empty.txt` has a run of `2 * digest_size` hex digits followed by a character
that is not a space, and `read_cheksum` accepts it as an entry for the file
`empty.txt`: the separator test of the code has no branch for a first separator
character other than a space. -/
theorem read_cheksum_accepts_tab_separator :
    read_cheksum (some "d41d8cd98f00b204e9800998ecf8427e\t empty.txt".toList) 16
      = Except.ok
          [{ filename := "empty.txt".toList,
             checksum := [212, 29, 140, 217, 143, 0, 178, 4, 233, 128, 9, 152, 236, 248, 66, 126],
             binary_mode := false }] := by
  rfl

/-- C4 (the code departs from the claim). In the manifest made of a valid line,
an empty line and the line `zz  g`, the first malformed line is the third line
of the text, and the error of `read_cheksum` carries the line number 2:
`continue` on an empty line skips `++line_number`. -/
theorem read_cheksum_line_number_skips_blank :
    read_cheksum
        (some "d41d8cd98f00b204e9800998ecf8427e  empty.txt\n\nzz  g\n".toList) 16
      = Except.error (Error.no_checksum 2) := by
  rfl

/-- C5 (the code departs from the claim). With digest size 16, a run of 32 hex
digits followed by a single tab ends `read_cheksum` with the uncaught
`std::out_of_range` of `substr`, and the same run followed by a single space
ends it with the message of the separator test; neither gives the message
"invalid format at line N" of the truncated-line test, which only fires when
nothing follows the run. -/
theorem read_cheksum_one_char_after_run :
    read_cheksum (some "d41d8cd98f00b204e9800998ecf8427e\t".toList) 16
        = Except.error Error.out_of_range
      ∧ read_cheksum (some "d41d8cd98f00b204e9800998ecf8427e ".toList) 16
        = Except.error (Error.invalid_format_in 1)
      ∧ read_cheksum (some "d41d8cd98f00b204e9800998ecf8427e".toList) 16
        = Except.error (Error.invalid_format 1) := by
  exact ⟨rfl, rfl, rfl⟩

/-- C7. Verification result: when the file of every entry can be hashed (the
hash giving `DIGESTSIZE` bytes), the loop of `check_digest` reports exactly one
outcome per entry, in the order of the entries; the outcome is `SUCCESS` exactly
when the checksum of the entry has `DIGESTSIZE` bytes and equals the digest
computed for its file with its `binary_mode`, and `FAIL` otherwise; and the
value returned is true exactly when every reported outcome is `SUCCESS`. -/
theorem check_entries_outcomes (hash : List Char → Bool → Option (List Nat)) (D : Nat)
    (hsize : ∀ f b d, hash f b = some d → d.length = D)
    (entries : List checksum_entry_t)
    (hall : ∀ e ∈ entries, ∃ d, hash e.filename e.binary_mode = some d) :
    (check_entries hash D entries).out
        = entries.map (fun e => (e.filename, verdict hash D e))
      ∧ ∃ b, (check_entries hash D entries).result = Except.ok b
          ∧ (b = true ↔ ∀ r ∈ (check_entries hash D entries).out, r.2 = Outcome.SUCCESS) := by
  rw [check_entries, check_loop_all_hashed hash D hsize entries true [] hall]
  refine ⟨by simp, _, rfl, ?_⟩
  simp only [Bool.true_and, List.all_eq_true, decide_eq_true_eq, List.nil_append,
    List.mem_map, forall_exists_index, and_imp]
  constructor
  · intro h r e he hr
    subst hr
    exact h e he
  · intro h e he
    exact h (e.filename, verdict hash D e) e he rfl

/-- Witness of C7: a hash that gives the byte `0xab` for every file, an entry
that matches it and one that does not. -/
theorem check_entries_outcomes_witness :
    (check_entries (fun _ _ => some [171]) 1
        [{ filename := ['f'], checksum := [171], binary_mode := false },
         { filename := ['g'], checksum := [1], binary_mode := true }]).out
        = [(['f'], Outcome.SUCCESS), (['g'], Outcome.FAIL)]
      ∧ ∃ b, (check_entries (fun _ _ => some [171]) 1
            [{ filename := ['f'], checksum := [171], binary_mode := false },
             { filename := ['g'], checksum := [1], binary_mode := true }]).result = Except.ok b
          ∧ (b = true ↔ ∀ r ∈ (check_entries (fun _ _ => some [171]) 1
              [{ filename := ['f'], checksum := [171], binary_mode := false },
               { filename := ['g'], checksum := [1], binary_mode := true }]).out,
              r.2 = Outcome.SUCCESS) :=
  check_entries_outcomes (fun _ _ => some [171]) 1
    (by
      intro f b d h
      simp only [Option.some.injEq] at h
      subst h
      rfl)
    [{ filename := ['f'], checksum := [171], binary_mode := false },
     { filename := ['g'], checksum := [1], binary_mode := true }]
    (fun _ _ => ⟨[171], rfl⟩)

/-- C8, counterexample. With a hash that fails for every file (`FileSource`
throws) and two entries whose checksums have `DIGESTSIZE` bytes, the loop of
`check_digest` reports nothing, neither for the first entry nor for the second,
and does not return false: the run ends with the exception. -/
theorem check_entries_unreadable_file_aborts :
    (check_entries (fun _ _ => none) 1
        [{ filename := ['f'], checksum := [0], binary_mode := false },
         { filename := ['g'], checksum := [0], binary_mode := false }]).out = []
      ∧ (check_entries (fun _ _ => none) 1
        [{ filename := ['f'], checksum := [0], binary_mode := false },
         { filename := ['g'], checksum := [0], binary_mode := false }]).result
          = Except.error Error.file_store_err
      ∧ (check_entries (fun _ _ => none) 1
        [{ filename := ['f'], checksum := [0], binary_mode := false },
         { filename := ['g'], checksum := [0], binary_mode := false }]).result
          ≠ Except.ok false := by
  refine ⟨rfl, rfl, ?_⟩
  intro h
  have h2 : (check_entries (fun _ _ => none) 1
      [{ filename := ['f'], checksum := [0], binary_mode := false },
       { filename := ['g'], checksum := [0], binary_mode := false }]).result
        = Except.error Error.file_store_err := rfl
  rw [h2] at h
  cases h

/-- C8, amended. When hashing the file of an entry fails because the file
cannot be opened or read (the checksum of the entry having `DIGESTSIZE` bytes,
and every entry before it either having a checksum of another size or a file
that can be hashed), the loop of `check_digest` has reported one outcome for
each entry before it, reports nothing for that entry nor for any later one, and
does not return a value: the exception of `FileSource` ends the run. -/
theorem check_entries_io_error (hash : List Char → Bool → Option (List Nat)) (D : Nat)
    (pre : List checksum_entry_t) (e : checksum_entry_t) (post : List checksum_entry_t)
    (hpre : ∀ x ∈ pre, x.checksum.length ≠ D ∨ ∃ d, hash x.filename x.binary_mode = some d)
    (he : e.checksum.length = D) (hfail : hash e.filename e.binary_mode = none) :
    (check_entries hash D (pre ++ e :: post)).result = Except.error Error.file_store_err
      ∧ (check_entries hash D (pre ++ e :: post)).out = (check_entries hash D pre).out
      ∧ (check_entries hash D pre).out.length = pre.length := by
  obtain ⟨h1, h2⟩ := check_loop_abort hash D e post he hfail pre true [] hpre
  simp only [check_entries]
  rw [h1]
  refine ⟨rfl, rfl, ?_⟩
  rw [h2]
  simp

/-- Witness of C8: the file `g` of the second of three entries cannot be
read. -/
theorem check_entries_io_error_witness :
    (check_entries (fun f _ => if f = ['g'] then none else some [171]) 1
        ([{ filename := ['f'], checksum := [171], binary_mode := false }]
          ++ { filename := ['g'], checksum := [1], binary_mode := false }
            :: [{ filename := ['h'], checksum := [171], binary_mode := false }])).result
        = Except.error Error.file_store_err
      ∧ (check_entries (fun f _ => if f = ['g'] then none else some [171]) 1
        ([{ filename := ['f'], checksum := [171], binary_mode := false }]
          ++ { filename := ['g'], checksum := [1], binary_mode := false }
            :: [{ filename := ['h'], checksum := [171], binary_mode := false }])).out
        = (check_entries (fun f _ => if f = ['g'] then none else some [171]) 1
            [{ filename := ['f'], checksum := [171], binary_mode := false }]).out
      ∧ (check_entries (fun f _ => if f = ['g'] then none else some [171]) 1
            [{ filename := ['f'], checksum := [171], binary_mode := false }]).out.length
          = [({ filename := ['f'], checksum := [171], binary_mode := false } :
              checksum_entry_t)].length :=
  check_entries_io_error (fun f _ => if f = ['g'] then none else some [171]) 1
    [{ filename := ['f'], checksum := [171], binary_mode := false }]
    { filename := ['g'], checksum := [1], binary_mode := false }
    [{ filename := ['h'], checksum := [171], binary_mode := false }]
    (by
      intro x hx
      simp only [List.mem_singleton] at hx
      subst hx
      exact Or.inr ⟨[171], rfl⟩)
    rfl rfl

/-- C9, counterexample. For the digest size `2 ^ 63 + 1` the product
`digest_size * 2` wraps to 2 in `std::size_t`, so `read_cheksum` returns the
entry of the line `ab  f`, whose checksum has one byte, not `2 ^ 63 + 1`. -/
theorem read_cheksum_wrapped_digest_size :
    read_cheksum (some "ab  f\n".toList) 9223372036854775809
        = Except.ok [{ filename := ['f'], checksum := [171], binary_mode := false }]
      ∧ ({ filename := ['f'], checksum := [171], binary_mode := false } :
            checksum_entry_t).checksum.length ≠ 9223372036854775809 := by
  refine ⟨rfl, by decide⟩

/-- C9, amended. Entry invariants: whenever `read_cheksum` returns its entries,
that is ends without an error, every entry has a file name that is not empty;
and when the digest size is below `2 ^ 63`, so that `digest_size * 2` does not
wrap, and every line is a string of fewer than `2 ^ 64` characters, every entry
has a checksum of exactly `digest_size` bytes, so that the test
`entry.checksum.size () != DIGESTSIZE` of `check_digest` is false for it. -/
theorem read_cheksum_entry_invariants (file : Option (List Char)) (n : Nat)
    (entries : List checksum_entry_t) (h : read_cheksum file n = Except.ok entries) :
    (∀ e ∈ entries, e.filename ≠ [])
      ∧ (n < 2 ^ 63 → (∀ text, file = some text → ∀ l ∈ getlines text, l.length < 2 ^ 64) →
          ∀ e ∈ entries, e.checksum.length = n) := by
  cases file with
  | none => simp [read_cheksum] at h
  | some text =>
    simp only [read_cheksum] at h
    constructor
    · exact read_loop_inv (fun e => e.filename ≠ []) n (getlines text) 1 [] entries
        (fun line _ k e hp => parse_line_ok_filename line n k e hp) (by simp) h
    · intro hn hlines
      exact read_loop_inv (fun e => e.checksum.length = n) n (getlines text) 1 [] entries
        (fun line hline k e hp =>
          parse_line_ok_checksum_length line n k e hn (hlines text rfl line hline) hp)
        (by simp) h

/-- Witness of C9: the manifest `ab  f` for digest size 1 is read as one entry,
whose file name is not empty and whose checksum has one byte. -/
theorem read_cheksum_entry_invariants_witness :
    read_cheksum (some "ab  f\n".toList) 1
        = Except.ok [{ filename := ['f'], checksum := [171], binary_mode := false }]
      ∧ ({ filename := ['f'], checksum := [171], binary_mode := false } :
            checksum_entry_t).filename ≠ []
      ∧ ({ filename := ['f'], checksum := [171], binary_mode := false } :
            checksum_entry_t).checksum.length = 1 :=
  ⟨rfl,
    (read_cheksum_entry_invariants (some "ab  f\n".toList) 1
      [{ filename := ['f'], checksum := [171], binary_mode := false }] rfl).1
      { filename := ['f'], checksum := [171], binary_mode := false }
      (List.mem_singleton_self _),
    (read_cheksum_entry_invariants (some "ab  f\n".toList) 1
      [{ filename := ['f'], checksum := [171], binary_mode := false }] rfl).2
      (by decide)
      (by
        intro text ht l hl
        simp only [Option.some.injEq] at ht
        subst ht
        have hg : getlines "ab  f\n".toList = ["ab  f".toList] := rfl
        rw [hg, List.mem_singleton] at hl
        subst hl
        decide)
      { filename := ['f'], checksum := [171], binary_mode := false }
      (List.mem_singleton_self _)⟩

/-- C10 (the code departs from the claim). For digest size 16 and the line made
of 32 hex digits followed by a single tab, the scan stops at `i = 32`, the test
`i + 1 > line.size ()` is false since the line has 33 characters, and
`line.substr (i + 2)` is evaluated with `i + 2 = 34`, beyond `line.size ()`:
`substr` throws `std::out_of_range`, so the line ends neither in an entry nor in
a reported parse error. -/
theorem parse_line_substr_out_of_range :
    scan "d41d8cd98f00b204e9800998ecf8427e\t".toList = 32
      ∧ "d41d8cd98f00b204e9800998ecf8427e\t".toList.length = 33
      ∧ ¬ (scan "d41d8cd98f00b204e9800998ecf8427e\t".toList + 1
            > "d41d8cd98f00b204e9800998ecf8427e\t".toList.length)
      ∧ scan "d41d8cd98f00b204e9800998ecf8427e\t".toList + 2
            > "d41d8cd98f00b204e9800998ecf8427e\t".toList.length
      ∧ parse_line "d41d8cd98f00b204e9800998ecf8427e\t".toList 16 1
          = Except.error Error.out_of_range := by
  refine ⟨rfl, rfl, by decide, by decide, rfl⟩

end HashUtils
